import Mathlib

/-!
Verification of the consistent-hashing ring in `src/Main.py`.

The Python class `ConsistentHash` keeps a dict `ring` (hash position →
physical node) and a list `sorted_keys` of positions kept sorted; keys are
hashed with MD5 truncated to its first 4 bytes read big-endian.  We embed
the class shallowly: the dict becomes an association list manipulated by
`dictSet` / `dictGet` / `dictDel`, the list operations `list.sort()` /
`list.remove(x)` / `bisect.bisect_left` become `List.insertionSort`,
`listRemove` and `bisect_left` (a fueled binary-search loop), and MD5 is
implemented in full over byte lists (`Nat` values below 256).
-/

namespace CHash

/-! ## MD5 over byte lists -/

def mask32 : Nat := 4294967295

def rotl32 (x s : Nat) : Nat := ((x <<< s) ||| (x >>> (32 - s))) &&& mask32

def not32 (x : Nat) : Nat := x ^^^ mask32

/-- The 64 MD5 sine-derived constants. -/
def Kt : List Nat := [
  3614090360, 3905402710, 606105819, 3250441966,
  4118548399, 1200080426, 2821735955, 4249261313,
  1770035416, 2336552879, 4294925233, 2304563134,
  1804603682, 4254626195, 2792965006, 1236535329,
  4129170786, 3225465664, 643717713, 3921069994,
  3593408605, 38016083, 3634488961, 3889429448,
  568446438, 3275163606, 4107603335, 1163531501,
  2850285829, 4243563512, 1735328473, 2368359562,
  4294588738, 2272392833, 1839030562, 4259657740,
  2763975236, 1272893353, 4139469664, 3200236656,
  681279174, 3936430074, 3572445317, 76029189,
  3654602809, 3873151461, 530742520, 3299628645,
  4096336452, 1126891415, 2878612391, 4237533241,
  1700485571, 2399980690, 4293915773, 2240044497,
  1873313359, 4264355552, 2734768916, 1309151649,
  4149444226, 3174756917, 718787259, 3951481745]

/-- The 64 MD5 per-round left-rotation amounts. -/
def St : List Nat := [
  7, 12, 17, 22, 7, 12, 17, 22, 7, 12, 17, 22, 7, 12, 17, 22,
  5, 9, 14, 20, 5, 9, 14, 20, 5, 9, 14, 20, 5, 9, 14, 20,
  4, 11, 16, 23, 4, 11, 16, 23, 4, 11, 16, 23, 4, 11, 16, 23,
  6, 10, 15, 21, 6, 10, 15, 21, 6, 10, 15, 21, 6, 10, 15, 21]

def md5F (i b c d : Nat) : Nat :=
  if i < 16 then (b &&& c) ||| (not32 b &&& d)
  else if i < 32 then (d &&& b) ||| (not32 d &&& c)
  else if i < 48 then b ^^^ c ^^^ d
  else c ^^^ (b ||| not32 d)

def md5G (i : Nat) : Nat :=
  if i < 16 then i
  else if i < 32 then (5 * i + 1) % 16
  else if i < 48 then (3 * i + 5) % 16
  else (7 * i) % 16

structure MDS where
  a : Nat
  b : Nat
  c : Nat
  d : Nat
  deriving DecidableEq, Repr

def md5Step (M : List Nat) (st : MDS) (i : Nat) : MDS :=
  let f := (md5F i st.b st.c st.d + st.a + Kt.getD i 0 + M.getD (md5G i) 0) &&& mask32
  ⟨st.d, (st.b + rotl32 f (St.getD i 0)) &&& mask32, st.b, st.c⟩

/-- Group a byte list into little-endian 32-bit words. -/
def toWords : List Nat → List Nat
  | b0 :: b1 :: b2 :: b3 :: rest =>
      (b0 + 256 * b1 + 65536 * b2 + 16777216 * b3) :: toWords rest
  | _ => []

def md5init : MDS := ⟨1732584193, 4023233417, 2562383102, 271733878⟩

def md5Block (st : MDS) (block : List Nat) : MDS :=
  let M := toWords block
  let r := (List.range 64).foldl (md5Step M) st
  ⟨(st.a + r.a) &&& mask32, (st.b + r.b) &&& mask32,
   (st.c + r.c) &&& mask32, (st.d + r.d) &&& mask32⟩

def chunksAux : Nat → List Nat → List (List Nat)
  | 0, _ => []
  | _ + 1, [] => []
  | fuel + 1, l => l.take 64 :: chunksAux fuel (l.drop 64)

def chunks (l : List Nat) : List (List Nat) := chunksAux l.length l

def lenBytes (n : Nat) : List Nat := (List.range 8).map (fun i => (n >>> (8 * i)) % 256)

/-- MD5 padding: a 0x80 byte, zeros to 56 mod 64, then the bit length. -/
def md5pad (msg : List Nat) : List Nat :=
  msg ++ 128 :: List.replicate ((119 - msg.length % 64) % 64) 0
      ++ lenBytes ((msg.length * 8) % 18446744073709551616)

def wordLE (w : Nat) : List Nat :=
  [w % 256, (w >>> 8) % 256, (w >>> 16) % 256, (w >>> 24) % 256]

/-- The 16-byte MD5 digest of a byte list. -/
def md5digest (msg : List Nat) : List Nat :=
  let f := (chunks (md5pad msg)).foldl md5Block md5init
  wordLE f.a ++ wordLE f.b ++ wordLE f.c ++ wordLE f.d

/-- UTF-8 encoding of one character, as Python `str.encode` produces. -/
def utf8Char (c : Char) : List Nat :=
  let n := c.toNat
  if n < 128 then [n]
  else if n < 2048 then [192 ||| (n >>> 6), 128 ||| (n &&& 63)]
  else if n < 65536 then
    [224 ||| (n >>> 12), 128 ||| ((n >>> 6) &&& 63), 128 ||| (n &&& 63)]
  else
    [240 ||| (n >>> 18), 128 ||| ((n >>> 12) &&& 63),
     128 ||| ((n >>> 6) &&& 63), 128 ||| (n &&& 63)]

def utf8Bytes (s : String) : List Nat := s.data.foldr (fun c acc => utf8Char c ++ acc) []

/-- `ConsistentHash._hash`: MD5 the UTF-8 bytes of the key, take the first
4 digest bytes, read them as a big-endian unsigned 32-bit integer
(`struct.unpack` with format `>I`). -/
def _hash (key : String) : Nat :=
  ((md5digest (utf8Bytes key)).take 4).foldl (fun acc b => acc * 256 + b) 0

/-! ## Python primitives: dict, `list.remove`, `bisect.bisect_left` -/

/-- Python dict assignment `d[k] = v`: update in place if the key exists,
otherwise append the new binding. -/
def dictSet : List (Nat × String) → Nat → String → List (Nat × String)
  | [], k, v => [(k, v)]
  | (k1, v1) :: rest, k, v =>
      if k1 = k then (k, v) :: rest else (k1, v1) :: dictSet rest k v

/-- Python dict lookup `d[k]`, `none` modelling a `KeyError`. -/
def dictGet : List (Nat × String) → Nat → Option String
  | [], _ => none
  | (k1, v1) :: rest, k => if k1 = k then some v1 else dictGet rest k

/-- Python `del d[k]`: remove the binding, `none` modelling a `KeyError`. -/
def dictDel : List (Nat × String) → Nat → Option (List (Nat × String))
  | [], _ => none
  | (k1, v1) :: rest, k =>
      if k1 = k then some rest else (dictDel rest k).map (fun r => (k1, v1) :: r)

/-- Python `list.remove(x)`: drop the first occurrence, `none` modelling a
`ValueError` when `x` is absent. -/
def listRemove (l : List Nat) (x : Nat) : Option (List Nat) :=
  if x ∈ l then some (l.erase x) else none

/-- The loop of `bisect.bisect_left(a, x)` from the Python standard
library, with explicit fuel (the interval shrinks each iteration, so
`a.length` steps always suffice). -/
def bisectLoop (a : List Nat) (x : Nat) : Nat → Nat → Nat → Nat
  | 0, lo, _ => lo
  | fuel + 1, lo, hi =>
      if lo < hi then
        if a.getD ((lo + hi) / 2) 0 < x then bisectLoop a x fuel ((lo + hi) / 2 + 1) hi
        else bisectLoop a x fuel lo ((lo + hi) / 2)
      else lo

/-- `bisect.bisect_left(a, x)`: leftmost insertion point for `x` in `a`. -/
def bisect_left (a : List Nat) (x : Nat) : Nat :=
  bisectLoop a x a.length 0 a.length

/-! ## The `ConsistentHash` class -/

structure ConsistentHash where
  replicas : Nat
  ring : List (Nat × String)
  sorted_keys : List Nat
  deriving DecidableEq, Repr

/-- Decimal digits of a positive number, most significant first. -/
def natDigits : Nat → Nat → List Char
  | 0, _ => []
  | fuel + 1, n =>
      if n = 0 then []
      else natDigits fuel (n / 10) ++ [Char.ofNat (48 + n % 10)]

/-- Decimal rendering of a natural number, as Python `str(i)` produces. -/
def natToStr (n : Nat) : String :=
  if n = 0 then "0" else String.mk (natDigits (n + 1) n)

/-- The virtual-node label `f"{node}:{i}"`. -/
def vnodeKey (node : String) (i : Nat) : String := node ++ ":" ++ natToStr i

/-- The `replicas` virtual-node positions of a physical node. -/
def nodeHashes (replicas : Nat) (node : String) : List Nat :=
  (List.range replicas).map (fun i => _hash (vnodeKey node i))

/-- `ConsistentHash.add_node`: for each `i` store `ring[h] = node` and
append `h` to `sorted_keys`, then sort the list once. -/
def add_node (s : ConsistentHash) (node : String) : ConsistentHash :=
  { s with
    ring := (nodeHashes s.replicas node).foldl (fun r h => dictSet r h node) s.ring
    sorted_keys :=
      (s.sorted_keys ++ nodeHashes s.replicas node).insertionSort (· ≤ ·) }

/-- One iteration of the `remove_node` loop: `del self.ring[h]` then
`self.sorted_keys.remove(h)`; `none` models an uncaught exception. -/
def removeStep (s : ConsistentHash) (h : Nat) : Option ConsistentHash := do
  let r ← dictDel s.ring h
  let sk ← listRemove s.sorted_keys h
  pure { s with ring := r, sorted_keys := sk }

/-- `ConsistentHash.remove_node`: delete each virtual-node position from
the dict and from the sorted list, in replica order. -/
def remove_node (s : ConsistentHash) (node : String) : Option ConsistentHash :=
  (nodeHashes s.replicas node).foldlM removeStep s

/-- Result of `ConsistentHash.get_node`: the Python method returns `None`
on an empty ring, returns a node name, or raises (`KeyError` from the dict
lookup, `IndexError` from list indexing). -/
inductive GetRes where
  | noNode
  | found (n : String)
  | keyError
  | indexError
  deriving DecidableEq, Repr

/-- `ConsistentHash.get_node`: binary-search `sorted_keys` for the first
position at or after the key's hash, wrapping to index 0 past the end. -/
def get_node (s : ConsistentHash) (key : String) : GetRes :=
  if s.ring = [] then .noNode
  else
    let h := _hash key
    let idx := bisect_left s.sorted_keys h
    let idx := if idx = s.sorted_keys.length then 0 else idx
    match s.sorted_keys.get? idx with
    | none => .indexError
    | some p =>
      match dictGet s.ring p with
      | none => .keyError
      | some n => .found n

/-- `ConsistentHash.__init__` with no initial nodes. -/
def initState (replicas : Nat) : ConsistentHash :=
  { replicas := replicas, ring := [], sorted_keys := [] }

/-- `ConsistentHash.__init__(nodes, replicas)`: start empty and
`add_node` each initial node in order. -/
def chInit (nodes : List String) (replicas : Nat) : ConsistentHash :=
  nodes.foldl add_node (initState replicas)

/-! ## Traces of public operations -/

inductive Op where
  | add (n : String)
  | remove (n : String)
  deriving DecidableEq, Repr

def Op.node : Op → String
  | .add n => n
  | .remove n => n

/-- Apply one mutating operation; `none` models an uncaught exception. -/
def applyOp (s : ConsistentHash) : Op → Option ConsistentHash
  | .add n => some (add_node s n)
  | .remove n => remove_node s n

/-- Run a trace of operations from a state; `none` if any raises. -/
def runOps (s : ConsistentHash) (ops : List Op) : Option ConsistentHash :=
  ops.foldlM applyOp s

/-- The physical nodes that are members after a trace: added and not
removed since. -/
def memAfter : List String → List Op → List String
  | mem, [] => mem
  | mem, .add n :: rest => memAfter (n :: mem) rest
  | mem, .remove n :: rest => memAfter (mem.erase n) rest

/-- Names mentioned by a trace. -/
def nodesOf (ops : List Op) : List String := ops.map Op.node

/-- Well-formed trace: every `add` is of a node not currently a member and
every `remove` of a node currently a member. -/
def wfTrace : List String → List Op → Bool
  | _, [] => true
  | mem, .add n :: rest => !mem.contains n && wfTrace (n :: mem) rest
  | mem, .remove n :: rest => mem.contains n && wfTrace (mem.erase n) rest

/-- State-passing form of `get_node`: the method reads `self.ring` and
`self.sorted_keys` but assigns no attribute, so each exit returns the
state it was called with. -/
def get_node_st (s : ConsistentHash) (key : String) : GetRes × ConsistentHash :=
  if s.ring = [] then (.noNode, s)
  else
    let h := _hash key
    let idx := bisect_left s.sorted_keys h
    let idx := if idx = s.sorted_keys.length then 0 else idx
    match s.sorted_keys.get? idx with
    | none => (.indexError, s)
    | some p =>
      match dictGet s.ring p with
      | none => (.keyError, s)
      | some n => (.found n, s)

/-- The position the specification says `get_node` must use: the smallest
occupied position at or after `h` (the first such element of the sorted
sequence), wrapping to the smallest occupied position when none exists.
Written from the spec text, to be compared with the code. -/
def ringTarget (sk : List Nat) (h : Nat) : Nat :=
  match sk.find? (fun p => decide (h ≤ p)) with
  | some p => p
  | none => sk.getD 0 0

/-! ## Ghost state for traces: members and their positions -/

/-- All virtual-node positions of the members, in member order. -/
def occHashes (R : Nat) (mem : List String) : List Nat :=
  mem.flatMap (fun n => nodeHashes R n)

/-- The member owning position `p`, if any. -/
def memLookup (R : Nat) (mem : List String) (p : Nat) : Option String :=
  mem.find? (fun n => (nodeHashes R n).contains p)

/-- Invariant tying a reachable ring state to the ghost member list:
the replica count is fixed, members are distinct, their virtual positions
are pairwise distinct, the sorted list is exactly the sorted sequence of
those positions, and the dict maps each position to its owning member. -/
structure GoodState (R : Nat) (mem : List String) (s : ConsistentHash) : Prop where
  rep : s.replicas = R
  memnd : mem.Nodup
  occnd : (occHashes R mem).Nodup
  skeys : s.sorted_keys = (occHashes R mem).insertionSort (· ≤ ·)
  keysnd : (s.ring.map Prod.fst).Nodup
  look : ∀ p, dictGet s.ring p = memLookup R mem p

/-- Injectivity of the virtual-node labelling on a set of node names:
no two labels `n1:i1`, `n2:i2` drawn from `ns` hash to the same 32-bit
position unless they are the same label. -/
def labelsInj (R : Nat) (ns : List String) : Prop :=
  ∀ n1 ∈ ns, ∀ n2 ∈ ns, ∀ i1 < R, ∀ i2 < R,
    _hash (vnodeKey n1 i1) = _hash (vnodeKey n2 i2) → n1 = n2 ∧ i1 = i2

instance labelsInjDecidable (R : Nat) (ns : List String) : Decidable (labelsInj R ns) := by
  unfold labelsInj
  infer_instance

/-! ## Lemmas on the dict model -/

theorem dictGet_eq_none_iff (r : List (Nat × String)) (k : Nat) :
    dictGet r k = none ↔ k ∉ r.map Prod.fst := by
  induction r with
  | nil => simp [dictGet]
  | cons p rest ih =>
      obtain ⟨k1, v1⟩ := p
      by_cases h : k1 = k
      · simp [dictGet, h]
      · have hne : ¬ (k = k1) := fun hh => h hh.symm
        simp [dictGet, h, ih, hne]

theorem dictGet_dictSet (r : List (Nat × String)) (k : Nat) (v : String) (p : Nat) :
    dictGet (dictSet r k v) p = if k = p then some v else dictGet r p := by
  induction r with
  | nil => simp [dictSet, dictGet]
  | cons q rest ih =>
      obtain ⟨k1, v1⟩ := q
      by_cases h1 : k1 = k
      · subst h1
        by_cases h2 : k1 = p <;> simp [dictSet, dictGet, h2]
      · by_cases h2 : k1 = p
        · have h3 : ¬ k = p := fun hh => h1 (h2.trans hh.symm)
          have h4 : ¬ p = k := fun hh => h3 hh.symm
          simp [dictSet, dictGet, h1, h2, h3, h4]
        · simp [dictSet, dictGet, h1, h2, ih]

theorem dictSet_fresh (r : List (Nat × String)) (k : Nat) (v : String)
    (h : k ∉ r.map Prod.fst) : dictSet r k v = r ++ [(k, v)] := by
  induction r with
  | nil => simp [dictSet]
  | cons q rest ih =>
      obtain ⟨k1, v1⟩ := q
      simp only [List.map_cons, List.mem_cons] at h
      push_neg at h
      have hne : ¬ (k1 = k) := fun hh => h.1 hh.symm
      simp [dictSet, hne, ih h.2]

theorem dictSet_keys_of_fresh (r : List (Nat × String)) (k : Nat) (v : String)
    (h : k ∉ r.map Prod.fst) :
    (dictSet r k v).map Prod.fst = r.map Prod.fst ++ [k] := by
  rw [dictSet_fresh r k v h]; simp

theorem foldl_dictSet_get (hs : List Nat) (r : List (Nat × String)) (v : String) (p : Nat) :
    dictGet (hs.foldl (fun r h => dictSet r h v) r) p
      = if p ∈ hs then some v else dictGet r p := by
  induction hs generalizing r with
  | nil => simp
  | cons h t ih =>
      simp only [List.foldl_cons, ih, dictGet_dictSet, List.mem_cons]
      by_cases hp : p ∈ t
      · simp [hp]
      · by_cases he : h = p
        · simp [hp, he]
        · have he2 : ¬ p = h := fun hh => he hh.symm
          simp [hp, he, he2]

theorem foldl_dictSet_fresh (hs : List Nat) (r : List (Nat × String)) (v : String)
    (hnd : hs.Nodup) (hf : ∀ h ∈ hs, h ∉ r.map Prod.fst) :
    hs.foldl (fun r h => dictSet r h v) r = r ++ hs.map (fun h => (h, v)) := by
  induction hs generalizing r with
  | nil => simp
  | cons h t ih =>
      simp only [List.foldl_cons]
      rw [dictSet_fresh r h v (hf h (by simp))]
      rw [ih (r ++ [(h, v)]) hnd.of_cons]
      · simp
      · intro h1 h1t
        simp only [List.map_append, List.mem_append, List.map_cons, List.map_nil,
          List.mem_singleton]
        rintro (hc | hc)
        · exact hf h1 (by simp [h1t]) hc
        · exact (List.nodup_cons.mp hnd).1 (hc ▸ h1t)

theorem dictDel_none_iff (r : List (Nat × String)) (k : Nat) :
    dictDel r k = none ↔ k ∉ r.map Prod.fst := by
  induction r with
  | nil => simp [dictDel]
  | cons q rest ih =>
      obtain ⟨k1, v1⟩ := q
      by_cases h : k1 = k
      · simp [dictDel, h]
      · have hmap : ((dictDel rest k).map (fun r => (k1, v1) :: r) = none)
            ↔ dictDel rest k = none := by
          cases dictDel rest k <;> simp
        have hne : ¬ (k = k1) := fun hh => h hh.symm
        simp only [dictDel, if_neg h, List.map_cons, List.mem_cons, hmap, ih]
        simp [hne]

theorem dictDel_keys (r : List (Nat × String)) (k : Nat) (r' : List (Nat × String))
    (h : dictDel r k = some r') : r'.map Prod.fst = (r.map Prod.fst).erase k := by
  induction r generalizing r' with
  | nil => simp [dictDel] at h
  | cons q rest ih =>
      obtain ⟨k1, v1⟩ := q
      by_cases h1 : k1 = k
      · subst h1
        simp only [dictDel, if_pos rfl] at h
        cases h
        simp [List.erase_cons_head]
      · simp only [dictDel, if_neg h1] at h
        cases hd : dictDel rest k with
        | none => rw [hd] at h; exact Option.noConfusion h
        | some t =>
            rw [hd] at h
            simp only [Option.map_some', Option.some_inj] at h
            subst h
            have hbeq : (k1 == k) = false := by simp [h1]
            simp [List.erase_cons, hbeq, ih t hd]

theorem dictDel_get (r : List (Nat × String)) (k : Nat) (r' : List (Nat × String))
    (hnd : (r.map Prod.fst).Nodup) (h : dictDel r k = some r') (p : Nat) :
    dictGet r' p = if p = k then none else dictGet r p := by
  induction r generalizing r' with
  | nil => simp [dictDel] at h
  | cons q rest ih =>
      obtain ⟨k1, v1⟩ := q
      simp only [List.map_cons, List.nodup_cons] at hnd
      by_cases h1 : k1 = k
      · subst h1
        simp only [dictDel, if_pos rfl] at h
        cases h
        by_cases hp : p = k1
        · subst hp
          simp [dictGet, (dictGet_eq_none_iff rest p).mpr hnd.1]
        · have hp2 : ¬ (k1 = p) := fun hh => hp hh.symm
          simp [dictGet, hp, hp2]
      · simp only [dictDel, if_neg h1] at h
        cases hd : dictDel rest k with
        | none => rw [hd] at h; exact Option.noConfusion h
        | some t =>
            rw [hd] at h
            simp only [Option.map_some', Option.some_inj] at h
            subst h
            by_cases hp : k1 = p
            · have hp2 : ¬ (p = k) := fun hh => h1 (hp.trans hh)
              simp [dictGet, hp, hp2]
            · simp [dictGet, hp, ih t hnd.2 hd]

theorem dictDel_append (r0 l : List (Nat × String)) (k : Nat)
    (h : k ∉ r0.map Prod.fst) :
    dictDel (r0 ++ l) k = (dictDel l k).map (fun t => r0 ++ t) := by
  induction r0 with
  | nil => simp [Option.map_id]
  | cons q rest ih =>
      obtain ⟨k1, v1⟩ := q
      simp only [List.map_cons, List.mem_cons] at h
      push_neg at h
      have hne : ¬ (k1 = k) := fun hh => h.1 hh.symm
      cases hd : dictDel l k with
      | none =>
          have hrl : dictDel (rest ++ l) k = none := by rw [ih h.2, hd]; rfl
          simp [List.cons_append, dictDel, hne, hrl]
      | some t =>
          have hrl : dictDel (rest ++ l) k = some (rest ++ t) := by rw [ih h.2, hd]; rfl
          simp [List.cons_append, dictDel, hne, hrl]

/-! ## Lemmas on the binary-search loop -/

theorem bisectLoop_le (a : List Nat) (x : Nat) :
    ∀ (fuel lo hi : Nat), lo ≤ hi → bisectLoop a x fuel lo hi ≤ hi := by
  intro fuel
  induction fuel with
  | zero => intro lo hi h; simpa [bisectLoop] using h
  | succ f ih =>
      intro lo hi h
      simp only [bisectLoop]
      by_cases hlt : lo < hi
      · rw [if_pos hlt]
        have hmidlo : lo ≤ (lo + hi) / 2 := by omega
        have hmidhi : (lo + hi) / 2 < hi := by omega
        by_cases hv : a.getD ((lo + hi) / 2) 0 < x
        · rw [if_pos hv]; exact ih ((lo + hi) / 2 + 1) hi hmidhi
        · rw [if_neg hv]
          exact le_trans (ih lo ((lo + hi) / 2) hmidlo) (le_of_lt hmidhi)
      · rw [if_neg hlt]; exact h

theorem bisect_left_le (a : List Nat) (x : Nat) : bisect_left a x ≤ a.length :=
  bisectLoop_le a x a.length 0 a.length (Nat.zero_le _)

theorem bisectLoop_spec (a : List Nat) (x : Nat)
    (mono : ∀ i j, i ≤ j → j < a.length → a.getD i 0 ≤ a.getD j 0) :
    ∀ (fuel lo hi : Nat), hi ≤ a.length → lo ≤ hi → hi - lo ≤ fuel →
    (∀ i, i < lo → a.getD i 0 < x) →
    (∀ i, hi ≤ i → i < a.length → x ≤ a.getD i 0) →
    (∀ i, i < bisectLoop a x fuel lo hi → a.getD i 0 < x) ∧
    (∀ i, bisectLoop a x fuel lo hi ≤ i → i < a.length → x ≤ a.getD i 0) := by
  intro fuel
  induction fuel with
  | zero =>
      intro lo hi h1 h2 h3 hlow hhigh
      have hq : lo = hi := by omega
      subst hq
      exact ⟨hlow, hhigh⟩
  | succ f ih =>
      intro lo hi h1 h2 h3 hlow hhigh
      simp only [bisectLoop]
      by_cases hlt : lo < hi
      · rw [if_pos hlt]
        have hmidlo : lo ≤ (lo + hi) / 2 := by omega
        have hmidhi : (lo + hi) / 2 < hi := by omega
        by_cases hv : a.getD ((lo + hi) / 2) 0 < x
        · rw [if_pos hv]
          refine ih ((lo + hi) / 2 + 1) hi h1 (by omega) (by omega) ?_ hhigh
          intro i hi2
          exact lt_of_le_of_lt
            (mono i ((lo + hi) / 2) (by omega) (lt_of_lt_of_le hmidhi h1)) hv
        · rw [if_neg hv]
          refine ih lo ((lo + hi) / 2) (le_trans (le_of_lt hmidhi) h1) hmidlo
            (by omega) hlow ?_
          intro i hi2 hi3
          exact le_trans (not_lt.mp hv) (mono ((lo + hi) / 2) i hi2 hi3)
      · rw [if_neg hlt]
        have hq : lo = hi := by omega
        subst hq
        exact ⟨hlow, hhigh⟩

theorem bisect_left_spec (a : List Nat) (x : Nat)
    (mono : ∀ i j, i ≤ j → j < a.length → a.getD i 0 ≤ a.getD j 0) :
    (∀ i, i < bisect_left a x → a.getD i 0 < x) ∧
    (∀ i, bisect_left a x ≤ i → i < a.length → x ≤ a.getD i 0) :=
  bisectLoop_spec a x mono a.length 0 a.length le_rfl (Nat.zero_le _) le_rfl
    (by intro i hi; omega) (by intro i hi1 hi2; omega)

/-! ## Indexed characterization of `List.find?` -/

theorem find?_eq_some_of_first (p : Nat → Bool) :
    ∀ (l : List Nat) (r : Nat), r < l.length →
    (∀ i, i < r → p (l.getD i 0) = false) → p (l.getD r 0) = true →
    l.find? p = some (l.getD r 0) := by
  intro l
  induction l with
  | nil => intro r hr _ _; simp at hr
  | cons a t ih =>
      intro r hr hbefore hat
      cases r with
      | zero =>
          simp only [List.getD_cons_zero] at hat ⊢
          simp [List.find?_cons_of_pos, hat]
      | succ r1 =>
          have ha : p a = false := by
            have := hbefore 0 (Nat.succ_pos r1)
            simpa using this
          rw [List.find?_cons_of_neg _ (by simp [ha])]
          simp only [List.getD_cons_succ] at hat ⊢
          refine ih r1 (by simpa using hr) ?_ hat
          intro i hi
          have := hbefore (i + 1) (by omega)
          simpa using this

theorem getD_eq_get_of_lt (l : List Nat) (i : Nat) (h : i < l.length) :
    l.getD i 0 = l.get ⟨i, h⟩ := by
  induction l generalizing i with
  | nil => simp at h
  | cons a t ih =>
      cases i with
      | zero => rfl
      | succ n => simpa using ih n (by simpa using h)

theorem find?_eq_none_of_all (p : Nat → Bool) (l : List Nat)
    (h : ∀ i, i < l.length → p (l.getD i 0) = false) : l.find? p = none := by
  rw [List.find?_eq_none]
  intro y hy
  obtain ⟨⟨i, hi⟩, rfl⟩ := List.mem_iff_get.mp hy
  have h2 := h i hi
  rw [getD_eq_get_of_lt l i hi] at h2
  simp only [List.get_eq_getElem] at h2
  simp [h2]

/-! ## Sorted-list helpers -/

theorem sorted_getD_mono (l : List Nat) (hs : l.Sorted (· ≤ ·)) :
    ∀ i j, i ≤ j → j < l.length → l.getD i 0 ≤ l.getD j 0 := by
  intro i j hij hj
  rcases Nat.eq_or_lt_of_le hij with rfl | hlt
  · exact le_rfl
  · have hi : i < l.length := lt_trans hlt hj
    have h2 := List.Sorted.rel_get_of_lt hs (a := ⟨i, hi⟩) (b := ⟨j, hj⟩) hlt
    rwa [getD_eq_get_of_lt l i hi, getD_eq_get_of_lt l j hj]

theorem sorted_erase (l : List Nat) (a : Nat) (hs : l.Sorted (· ≤ ·)) :
    (l.erase a).Sorted (· ≤ ·) :=
  hs.sublist (List.erase_sublist a l)

theorem sorted_foldl_erase (hs : List Nat) :
    ∀ (l : List Nat), l.Sorted (· ≤ ·) → (hs.foldl List.erase l).Sorted (· ≤ ·) := by
  induction hs with
  | nil => intro l h; exact h
  | cons a t ih => intro l h; exact ih (l.erase a) (sorted_erase l a h)

/-- Removing the elements of `hs` one at a time from a list that is, up to
permutation, `hs ++ l`, leaves a permutation of `l`. -/
theorem foldl_erase_perm (hs : List Nat) :
    ∀ (big l : List Nat), big.Perm (hs ++ l) → (hs.foldl List.erase big).Perm l := by
  induction hs with
  | nil => intro big l h; simpa using h
  | cons a t ih =>
      intro big l h
      simp only [List.foldl_cons]
      refine ih (big.erase a) l ?_
      have h1 : big.Perm (a :: (t ++ l)) := h.trans (by simp)
      have h2 : (big.erase a).Perm ((a :: (t ++ l)).erase a) := h1.erase a
      simpa using h2

/-! ## The `remove_node` loop -/

theorem append_diff_self (hs l : List Nat) : (hs ++ l).diff hs = l := by
  induction hs with
  | nil => simp
  | cons a t ih =>
      simp only [List.cons_append, List.diff_cons, List.erase_cons_head]
      exact ih

theorem removeStep_some (s : ConsistentHash) (h : Nat) (r1 : List (Nat × String))
    (hr1 : dictDel s.ring h = some r1) (hsk : h ∈ s.sorted_keys) :
    removeStep s h = some { s with ring := r1, sorted_keys := s.sorted_keys.erase h } := by
  simp [removeStep, hr1, listRemove, hsk]

/-- Full description of one `remove_node` loop run: when every position to
delete is distinct, present in the dict and present in the sorted list,
every iteration succeeds, and the final dict and list are the originals
with those positions deleted. -/
theorem removeLoop_spec :
    ∀ (hs : List Nat) (s : ConsistentHash),
    hs.Nodup → (s.ring.map Prod.fst).Nodup →
    (∀ h ∈ hs, h ∈ s.ring.map Prod.fst) → (∀ h ∈ hs, h ∈ s.sorted_keys) →
    ∃ s2, hs.foldlM removeStep s = some s2
      ∧ s2.replicas = s.replicas
      ∧ (∀ p, dictGet s2.ring p = if p ∈ hs then none else dictGet s.ring p)
      ∧ s2.ring.map Prod.fst = hs.foldl List.erase (s.ring.map Prod.fst)
      ∧ s2.sorted_keys = hs.foldl List.erase s.sorted_keys := by
  intro hs
  induction hs with
  | nil =>
      intro s _ _ _ _
      exact ⟨s, rfl, rfl, by simp, rfl, rfl⟩
  | cons h t ih =>
      intro s hnd hknd hrk hsk
      have hhk : h ∈ s.ring.map Prod.fst := hrk h (List.mem_cons_self h t)
      obtain ⟨r1, hr1⟩ : ∃ r1, dictDel s.ring h = some r1 := by
        cases hd : dictDel s.ring h with
        | none => exact absurd hhk ((dictDel_none_iff s.ring h).mp hd)
        | some r1 => exact ⟨r1, rfl⟩
      have hstep := removeStep_some s h r1 hr1 (hsk h (List.mem_cons_self h t))
      have hget1 := dictDel_get s.ring h r1 hknd hr1
      have hkeys1 := dictDel_keys s.ring h r1 hr1
      have hmemt : ∀ h1 ∈ t, h1 ≠ h := by
        intro h1 h1t
        exact fun hq => (List.nodup_cons.mp hnd).1 (hq ▸ h1t)
      obtain ⟨s2, hrun, hrep, hget, hkeys, hsorted⟩ :=
        ih { s with ring := r1, sorted_keys := s.sorted_keys.erase h }
          (List.nodup_cons.mp hnd).2
          (by simpa [hkeys1] using hknd.erase h)
          (by
            intro h1 h1t
            show h1 ∈ r1.map Prod.fst
            rw [hkeys1]
            exact (List.mem_erase_of_ne (hmemt h1 h1t)).mpr (hrk h1 (List.mem_cons_of_mem h h1t)))
          (by
            intro h1 h1t
            exact (List.mem_erase_of_ne (hmemt h1 h1t)).mpr (hsk h1 (List.mem_cons_of_mem h h1t)))
      refine ⟨s2, ?_, ?_, ?_, ?_, ?_⟩
      · rw [List.foldlM_cons, hstep]
        simpa using hrun
      · rw [hrep]
      · intro p
        rw [hget p]
        by_cases hp : p ∈ t
        · simp [hp]
        · by_cases hph : p = h
          · simp [hp, hph, hget1]
          · simp [hp, hph, hget1]
      · rw [List.foldl_cons, ← hkeys1]
        exact hkeys
      · rw [List.foldl_cons]
        exact hsorted

/-- The `remove_node` loop on a dict whose tail is exactly the freshly
appended bindings removes them and restores the original dict. -/
theorem delLoop_exact :
    ∀ (hs : List Nat) (r0 : List (Nat × String)) (v : String) (s : ConsistentHash),
    s.ring = r0 ++ hs.map (fun h => (h, v)) → hs.Nodup →
    (∀ h ∈ hs, h ∉ r0.map Prod.fst) → (∀ h ∈ hs, h ∈ s.sorted_keys) →
    ∃ s2, hs.foldlM removeStep s = some s2 ∧ s2.ring = r0
      ∧ s2.replicas = s.replicas ∧ s2.sorted_keys = hs.foldl List.erase s.sorted_keys := by
  intro hs
  induction hs with
  | nil =>
      intro r0 v s hring _ _ _
      exact ⟨s, rfl, by simpa using hring, rfl, rfl⟩
  | cons h t ih =>
      intro r0 v s hring hnd hf hsk
      have hdel : dictDel s.ring h = some (r0 ++ t.map (fun h => (h, v))) := by
        rw [hring, List.map_cons, dictDel_append r0 _ h (hf h (List.mem_cons_self h t))]
        simp [dictDel]
      have hstep := removeStep_some s h _ hdel (hsk h (List.mem_cons_self h t))
      have hmemt : ∀ h1 ∈ t, h1 ≠ h := by
        intro h1 h1t
        exact fun hq => (List.nodup_cons.mp hnd).1 (hq ▸ h1t)
      obtain ⟨s2, hrun, hr0, hrep, hsorted⟩ :=
        ih r0 v { s with ring := r0 ++ t.map (fun h => (h, v)),
                         sorted_keys := s.sorted_keys.erase h }
          rfl (List.nodup_cons.mp hnd).2
          (fun h1 h1t => hf h1 (List.mem_cons_of_mem h h1t))
          (by
            intro h1 h1t
            exact (List.mem_erase_of_ne (hmemt h1 h1t)).mpr (hsk h1 (List.mem_cons_of_mem h h1t)))
      refine ⟨s2, ?_, hr0, by rw [hrep], ?_⟩
      · rw [List.foldlM_cons, hstep]
        simpa using hrun
      · rw [List.foldl_cons]
        exact hsorted

/-! ## Ghost-state lemmas -/

theorem nodeHashes_length (R : Nat) (n : String) : (nodeHashes R n).length = R := by
  simp [nodeHashes]

theorem occHashes_cons (R : Nat) (n : String) (mem : List String) :
    occHashes R (n :: mem) = nodeHashes R n ++ occHashes R mem := by
  simp [occHashes]

theorem mem_occHashes (R : Nat) (mem : List String) (p : Nat) :
    p ∈ occHashes R mem ↔ ∃ m ∈ mem, p ∈ nodeHashes R m := by
  simp [occHashes]

theorem nodeHashes_sublist_occ (R : Nat) (n : String) (mem : List String)
    (h : n ∈ mem) : List.Sublist (nodeHashes R n) (occHashes R mem) := by
  induction mem with
  | nil => simp at h
  | cons m rest ih =>
      rw [occHashes_cons]
      rcases List.mem_cons.mp h with rfl | hr
      · exact List.sublist_append_left _ _
      · exact (ih hr).trans (List.sublist_append_right _ _)

theorem occHashes_sublist (R : Nat) (mem1 mem2 : List String)
    (h : List.Sublist mem1 mem2) : List.Sublist (occHashes R mem1) (occHashes R mem2) := by
  induction h with
  | slnil => exact List.Sublist.refl _
  | cons a hsub ih =>
      rw [occHashes_cons]
      exact ih.trans (List.sublist_append_right _ _)
  | cons₂ a hsub ih =>
      rw [occHashes_cons, occHashes_cons]
      exact ih.append_left _

theorem occ_disjoint (R : Nat) (mem : List String)
    (hocc : (occHashes R mem).Nodup)
    (m1 m2 : String) (h1 : m1 ∈ mem) (h2 : m2 ∈ mem) (hne : m1 ≠ m2)
    (p : Nat) (hp1 : p ∈ nodeHashes R m1) (hp2 : p ∈ nodeHashes R m2) : False := by
  have h2e : m2 ∈ mem.erase m1 := (List.mem_erase_of_ne hne.symm).mpr h2
  have e : mem.Perm (m1 :: m2 :: (mem.erase m1).erase m2) :=
    (List.perm_cons_erase h1).trans ((List.perm_cons_erase h2e).cons m1)
  have eo : (occHashes R mem).Perm (occHashes R (m1 :: m2 :: (mem.erase m1).erase m2)) :=
    e.flatMap_right _
  have hnd2 : (occHashes R (m1 :: m2 :: (mem.erase m1).erase m2)).Nodup :=
    eo.nodup_iff.mp hocc
  rw [occHashes_cons, occHashes_cons] at hnd2
  have hdisj := (List.nodup_append.mp hnd2).2.2
  exact hdisj hp1 (List.mem_append_left _ hp2)

theorem memLookup_cons (R : Nat) (n : String) (mem : List String) (p : Nat) :
    memLookup R (n :: mem) p
      = if p ∈ nodeHashes R n then some n else memLookup R mem p := by
  by_cases h : p ∈ nodeHashes R n
  · simp [memLookup, List.find?_cons_of_pos, h]
  · rw [if_neg h]
    show List.find? (fun m => (nodeHashes R m).contains p) (n :: mem)
        = List.find? (fun m => (nodeHashes R m).contains p) mem
    exact List.find?_cons_of_neg mem (by simpa using h)

theorem memLookup_some (R : Nat) (mem : List String) (p : Nat) (m : String)
    (h : memLookup R mem p = some m) : m ∈ mem ∧ p ∈ nodeHashes R m := by
  refine ⟨List.mem_of_find?_eq_some h, ?_⟩
  have := List.find?_some h
  simpa using this

theorem memLookup_isSome (R : Nat) (mem : List String) (p : Nat) (m : String)
    (hm : m ∈ mem) (hp : p ∈ nodeHashes R m) :
    ∃ m2, memLookup R mem p = some m2 := by
  have : (memLookup R mem p).isSome := by
    rw [memLookup, List.find?_isSome]
    exact ⟨m, hm, by simpa using hp⟩
  cases hq : memLookup R mem p with
  | none => rw [hq] at this; simp at this
  | some m2 => exact ⟨m2, rfl⟩

theorem memLookup_eq_none (R : Nat) (mem : List String) (p : Nat)
    (h : ∀ m ∈ mem, p ∉ nodeHashes R m) : memLookup R mem p = none := by
  rw [memLookup, List.find?_eq_none]
  intro m hm
  simpa using h m hm

theorem find?_erase_of_false (q : String → Bool) (n : String) (hq : q n = false) :
    ∀ (l : List String), (l.erase n).find? q = l.find? q := by
  intro l
  induction l with
  | nil => rfl
  | cons a t ih =>
      by_cases ha : a = n
      · subst ha
        rw [List.erase_cons_head, List.find?_cons_of_neg _ (by simp [hq])]
      · rw [List.erase_cons_tail (by simpa using ha)]
        by_cases hqa : q a = true
        · rw [List.find?_cons_of_pos _ hqa, List.find?_cons_of_pos _ hqa]
        · rw [List.find?_cons_of_neg _ (by simpa using hqa),
            List.find?_cons_of_neg _ (by simpa using hqa)]
          exact ih

theorem memLookup_erase (R : Nat) (mem : List String) (n : String) (p : Nat)
    (hp : p ∉ nodeHashes R n) :
    memLookup R (mem.erase n) p = memLookup R mem p := by
  have hq : ((nodeHashes R n).contains p) = false := by simpa using hp
  exact find?_erase_of_false _ n hq mem

/-! ## Preservation of the invariant -/

theorem GS_init (R : Nat) : GoodState R [] (initState R) := by
  refine ⟨rfl, List.nodup_nil, ?_, ?_, List.nodup_nil, fun p => rfl⟩
  · simp [occHashes]
  · simp [initState, occHashes]

theorem GS_add (R : Nat) (mem : List String) (s : ConsistentHash) (n : String)
    (hg : GoodState R mem s) (hn : n ∉ mem) (hhn : (nodeHashes R n).Nodup)
    (hfresh : ∀ h ∈ nodeHashes R n, h ∉ occHashes R mem) :
    GoodState R (n :: mem) (add_node s n) := by
  have hkeysfresh : ∀ h ∈ nodeHashes R n, h ∉ s.ring.map Prod.fst := by
    intro h hh hk
    have hgn : dictGet s.ring h ≠ none := by
      rw [Ne, dictGet_eq_none_iff]
      exact fun hq => hq hk
    rw [hg.look h] at hgn
    cases hq : memLookup R mem h with
    | none => exact hgn hq
    | some m =>
        obtain ⟨hm, hpm⟩ := memLookup_some R mem h m hq
        exact hfresh h hh ((mem_occHashes R mem h).mpr ⟨m, hm, hpm⟩)
  have hringeq : (add_node s n).ring
      = s.ring ++ (nodeHashes R n).map (fun h => (h, n)) := by
    simp only [add_node, hg.rep]
    exact foldl_dictSet_fresh _ _ _ hhn hkeysfresh
  refine ⟨?_, ?_, ?_, ?_, ?_, ?_⟩
  · simpa [add_node] using hg.rep
  · exact List.nodup_cons.mpr ⟨hn, hg.memnd⟩
  · rw [occHashes_cons]
    rw [List.nodup_append]
    exact ⟨hhn, hg.occnd, fun a ha hb => hfresh a ha hb⟩
  · show (s.sorted_keys ++ nodeHashes s.replicas n).insertionSort (· ≤ ·) = _
    rw [hg.rep]
    refine List.eq_of_perm_of_sorted ?_ (List.sorted_insertionSort _ _)
      (List.sorted_insertionSort _ _)
    refine (List.perm_insertionSort _ _).trans ?_
    refine List.Perm.trans ?_ (List.perm_insertionSort _ _).symm
    rw [occHashes_cons]
    refine List.Perm.trans ?_ List.perm_append_comm
    rw [hg.skeys]
    exact (List.perm_insertionSort _ _).append_right _
  · rw [hringeq]
    rw [List.map_append, List.nodup_append]
    refine ⟨hg.keysnd, ?_, ?_⟩
    · simpa [List.map_map, Function.comp_def] using hhn
    · intro a ha hb
      simp only [List.map_map] at hb
      have hb2 : a ∈ nodeHashes R n := by
        simpa [Function.comp_def] using hb
      exact hkeysfresh a hb2 ha
  · intro p
    have hq : dictGet (add_node s n).ring p
        = if p ∈ nodeHashes R n then some n else dictGet s.ring p := by
      simp only [add_node, hg.rep]
      exact foldl_dictSet_get _ _ _ _
    rw [hq, memLookup_cons, hg.look]

theorem GS_remove (R : Nat) (mem : List String) (s : ConsistentHash) (n : String)
    (hg : GoodState R mem s) (hn : n ∈ mem) :
    ∃ s2, remove_node s n = some s2 ∧ GoodState R (mem.erase n) s2 := by
  have hsubocc := nodeHashes_sublist_occ R n mem hn
  have hhn : (nodeHashes R n).Nodup := hg.occnd.sublist hsubocc
  have hinkeys : ∀ h ∈ nodeHashes R n, h ∈ s.ring.map Prod.fst := by
    intro h hh
    obtain ⟨m2, hm2⟩ := memLookup_isSome R mem h n hn hh
    have : dictGet s.ring h ≠ none := by
      rw [hg.look h, hm2]
      exact Option.noConfusion
    rw [Ne, dictGet_eq_none_iff] at this
    exact Decidable.not_not.mp this
  have hinsk : ∀ h ∈ nodeHashes R n, h ∈ s.sorted_keys := by
    intro h hh
    rw [hg.skeys]
    rw [(List.perm_insertionSort _ _).mem_iff]
    exact hsubocc.subset hh
  obtain ⟨s2, hrun, hrep, hget, hkeys, hsorted⟩ :=
    removeLoop_spec (nodeHashes R n) s hhn hg.keysnd hinkeys hinsk
  refine ⟨s2, ?_, ?_, ?_, ?_, ?_, ?_, ?_⟩
  · rw [remove_node, hg.rep]
    exact hrun
  · rw [hrep, hg.rep]
  · exact hg.memnd.erase n
  · exact hg.occnd.sublist (occHashes_sublist R _ _ (List.erase_sublist n mem))
  · rw [hsorted, hg.skeys]
    refine List.eq_of_perm_of_sorted ?_
      (sorted_foldl_erase _ _ (List.sorted_insertionSort _ _))
      (List.sorted_insertionSort _ _)
    refine List.Perm.trans (foldl_erase_perm _ _ (occHashes R (mem.erase n)) ?_)
      (List.perm_insertionSort _ _).symm
    refine (List.perm_insertionSort _ _).trans ?_
    rw [← occHashes_cons]
    exact (List.perm_cons_erase hn).flatMap_right _
  · rw [hkeys, ← List.diff_eq_foldl]
    exact hg.keysnd.sublist (List.diff_sublist _ _)
  · intro p
    rw [hget p]
    by_cases hp : p ∈ nodeHashes R n
    · rw [if_pos hp]
      symm
      refine memLookup_eq_none R _ p ?_
      intro m hm hpm
      have hmm : m ∈ mem := List.mem_of_mem_erase hm
      have hmn : m ≠ n := (hg.memnd.mem_erase_iff.mp hm).1
      exact occ_disjoint R mem hg.occnd n m hn hmm (Ne.symm hmn) p hp hpm
    · rw [if_neg hp, hg.look p, memLookup_erase R mem n p hp]

/-- Main trace induction: from a good state, any well-formed trace whose
labels hash injectively runs without exceptions and reaches a good state
for the updated member list. -/
theorem runOps_good (R : Nat) (ns : List String) (hinj : labelsInj R ns) :
    ∀ (ops : List Op) (mem : List String) (s : ConsistentHash),
    GoodState R mem s → wfTrace mem ops = true →
    (∀ m ∈ mem, m ∈ ns) → (∀ m ∈ nodesOf ops, m ∈ ns) →
    ∃ s2, runOps s ops = some s2 ∧ GoodState R (memAfter mem ops) s2 := by
  intro ops
  induction ops with
  | nil =>
      intro mem s hg _ _ _
      exact ⟨s, rfl, hg⟩
  | cons op rest ih =>
      intro mem s hg hwf hmem hops
      cases op with
      | add n =>
          simp only [wfTrace, Bool.and_eq_true, Bool.not_eq_true'] at hwf
          obtain ⟨hcon, hwf2⟩ := hwf
          have hn : n ∉ mem := by simpa using hcon
          have hnns : n ∈ ns := hops n (by simp [nodesOf, Op.node])
          have hhn : (nodeHashes R n).Nodup := by
            rw [nodeHashes]
            refine List.Nodup.map_on ?_ (List.nodup_range R)
            intro i1 h1 i2 h2 heq
            exact (hinj n hnns n hnns i1 (List.mem_range.mp h1) i2
              (List.mem_range.mp h2) heq).2
          have hfresh : ∀ h ∈ nodeHashes R n, h ∉ occHashes R mem := by
            intro h hh hocc
            obtain ⟨i1, hi1, rfl⟩ := List.mem_map.mp hh
            obtain ⟨m, hm, hpm⟩ := (mem_occHashes R mem _).mp hocc
            obtain ⟨i2, hi2, heq⟩ := List.mem_map.mp hpm
            have hq := hinj m (hmem m hm) n hnns i2 (List.mem_range.mp hi2) i1
              (List.mem_range.mp hi1) heq
            exact hn (hq.1 ▸ hm)
          have hg2 := GS_add R mem s n hg hn hhn hfresh
          obtain ⟨s2, hrun, hg3⟩ := ih (n :: mem) (add_node s n) hg2 hwf2
            (by
              intro m hm
              rcases List.mem_cons.mp hm with rfl | hm2
              · exact hnns
              · exact hmem m hm2)
            (fun m hm => hops m (List.mem_cons_of_mem _ hm))
          refine ⟨s2, ?_, hg3⟩
          simpa [runOps, applyOp] using hrun
      | remove n =>
          simp only [wfTrace, Bool.and_eq_true] at hwf
          obtain ⟨hcon, hwf2⟩ := hwf
          have hn : n ∈ mem := by simpa using hcon
          obtain ⟨s1, hrm, hg2⟩ := GS_remove R mem s n hg hn
          obtain ⟨s2, hrun, hg3⟩ := ih (mem.erase n) s1 hg2 hwf2
            (fun m hm => hmem m (List.mem_of_mem_erase hm))
            (fun m hm => hops m (List.mem_cons_of_mem _ hm))
          refine ⟨s2, ?_, hg3⟩
          simpa [runOps, applyOp, hrm] using hrun

/-! ## Characterizing `get_node` -/

theorem get?_eq_some_getD (l : List Nat) (i : Nat) (h : i < l.length) :
    l.get? i = some (l.getD i 0) := by
  rw [getD_eq_get_of_lt l i h]
  exact List.get?_eq_get h

theorem sorted_getD_zero_min (sk : List Nat) (hs : sk.Sorted (· ≤ ·))
    (q : Nat) (hq : q ∈ sk) : sk.getD 0 0 ≤ q := by
  obtain ⟨⟨j, hj⟩, rfl⟩ := List.mem_iff_get.mp hq
  have h2 := sorted_getD_mono sk hs 0 j (Nat.zero_le _) hj
  rwa [getD_eq_get_of_lt _ _ hj] at h2

theorem find?_le_first_sorted (h : Nat) :
    ∀ (sk : List Nat), sk.Sorted (· ≤ ·) →
    ∀ p, sk.find? (fun q => decide (h ≤ q)) = some p →
    h ≤ p ∧ ∀ q ∈ sk, h ≤ q → p ≤ q := by
  intro sk
  induction sk with
  | nil => intro _ p hp; simp at hp
  | cons a t ih =>
      intro hsort p hp
      by_cases ha : h ≤ a
      · simp only [List.find?, decide_eq_true ha] at hp
        obtain rfl : a = p := by simpa using hp
        refine ⟨ha, ?_⟩
        intro q hq _
        rcases List.mem_cons.mp hq with rfl | hq2
        · exact le_rfl
        · exact (List.sorted_cons.mp hsort).1 q hq2
      · simp only [List.find?, decide_eq_false ha] at hp
        obtain ⟨h1, h2⟩ := ih (List.sorted_cons.mp hsort).2 p hp
        refine ⟨h1, ?_⟩
        intro q hq hhq
        rcases List.mem_cons.mp hq with rfl | hq2
        · exact absurd hhq ha
        · exact h2 q hq2 hhq

theorem ringTarget_mem (sk : List Nat) (h : Nat) (hsk : sk ≠ []) :
    ringTarget sk h ∈ sk := by
  rw [ringTarget]
  cases hf : sk.find? (fun p => decide (h ≤ p)) with
  | some p => exact List.mem_of_find?_eq_some hf
  | none =>
      have hpos : 0 < sk.length := List.length_pos.mpr hsk
      rw [getD_eq_get_of_lt _ _ hpos]
      exact List.get_mem _ _ _

theorem ringTarget_least (sk : List Nat) (h : Nat) (hsort : sk.Sorted (· ≤ ·))
    (hex : ∃ q ∈ sk, h ≤ q) :
    h ≤ ringTarget sk h ∧ ∀ q ∈ sk, h ≤ q → ringTarget sk h ≤ q := by
  obtain ⟨q0, hq0, hhq0⟩ := hex
  cases hf : sk.find? (fun p => decide (h ≤ p)) with
  | none =>
      rw [List.find?_eq_none] at hf
      exact absurd hhq0 (by simpa using hf q0 hq0)
  | some p =>
      rw [ringTarget, hf]
      exact find?_le_first_sorted h sk hsort p hf

theorem ringTarget_wrap (sk : List Nat) (h : Nat) (hall : ∀ q ∈ sk, q < h) :
    ringTarget sk h = sk.getD 0 0 := by
  rw [ringTarget]
  have hnone : sk.find? (fun p => decide (h ≤ p)) = none := by
    rw [List.find?_eq_none]
    intro x hx
    simpa using not_le.mpr (hall x hx)
  rw [hnone]

/-- The lookup in `get_node` returns `found nd` where `nd` is the dict
entry at the specified target position: the first sorted position at or
after the key hash, the smallest position on wrap-around. -/
theorem get_node_found (s : ConsistentHash) (key : String)
    (hs : s.sorted_keys.Sorted (· ≤ ·))
    (hring : s.ring ≠ [])
    (hsk : s.sorted_keys ≠ [])
    (hcov : ∀ p ∈ s.sorted_keys, dictGet s.ring p ≠ none) :
    ∃ nd, dictGet s.ring (ringTarget s.sorted_keys (_hash key)) = some nd
      ∧ get_node s key = GetRes.found nd := by
  have hpos : 0 < s.sorted_keys.length := List.length_pos.mpr hsk
  have mono := sorted_getD_mono _ hs
  obtain ⟨hlow, hhigh⟩ := bisect_left_spec s.sorted_keys (_hash key) mono
  have hle := bisect_left_le s.sorted_keys (_hash key)
  have hcase : ∃ j, j < s.sorted_keys.length
      ∧ (if bisect_left s.sorted_keys (_hash key) = s.sorted_keys.length then 0
         else bisect_left s.sorted_keys (_hash key)) = j
      ∧ ringTarget s.sorted_keys (_hash key) = s.sorted_keys.getD j 0 := by
    by_cases hr : bisect_left s.sorted_keys (_hash key) = s.sorted_keys.length
    · refine ⟨0, hpos, by rw [if_pos hr], ?_⟩
      have hnone : s.sorted_keys.find? (fun p => decide (_hash key ≤ p)) = none := by
        apply find?_eq_none_of_all
        intro i hi
        exact decide_eq_false (not_le.mpr (hlow i (by omega)))
      rw [ringTarget, hnone]
    · have hrlt : bisect_left s.sorted_keys (_hash key) < s.sorted_keys.length :=
        lt_of_le_of_ne hle hr
      refine ⟨bisect_left s.sorted_keys (_hash key), hrlt, by rw [if_neg hr], ?_⟩
      have hsome : s.sorted_keys.find? (fun p => decide (_hash key ≤ p))
          = some (s.sorted_keys.getD (bisect_left s.sorted_keys (_hash key)) 0) := by
        apply find?_eq_some_of_first
        · exact hrlt
        · intro i hi
          exact decide_eq_false (not_le.mpr (hlow i hi))
        · exact decide_eq_true (hhigh _ le_rfl hrlt)
      rw [ringTarget, hsome]
  obtain ⟨j, hj, hidx, htgt⟩ := hcase
  have hmemj : s.sorted_keys.getD j 0 ∈ s.sorted_keys := by
    rw [getD_eq_get_of_lt _ _ hj]
    exact List.get_mem _ _ _
  obtain ⟨nd, hnd⟩ : ∃ nd, dictGet s.ring (s.sorted_keys.getD j 0) = some nd := by
    cases hq : dictGet s.ring (s.sorted_keys.getD j 0) with
    | none => exact absurd hq (hcov _ hmemj)
    | some nd => exact ⟨nd, rfl⟩
  refine ⟨nd, by rw [htgt]; exact hnd, ?_⟩
  simp only [get_node, if_neg hring]
  rw [hidx, get?_eq_some_getD _ _ hj]
  have hnd2 : dictGet s.ring (s.sorted_keys[j]?.getD 0) = some nd := by
    rw [← List.getD_eq_getElem?_getD]
    exact hnd
  simp [hnd2]

/-! ## Range of the hash -/

theorem wordLE_lt (w : Nat) : ∀ b ∈ wordLE w, b < 256 := by
  intro b hb
  simp only [wordLE, List.mem_cons, List.not_mem_nil, or_false] at hb
  rcases hb with rfl | rfl | rfl | rfl <;> exact Nat.mod_lt _ (by norm_num)

theorem md5digest_lt (m : List Nat) : ∀ b ∈ md5digest m, b < 256 := by
  intro b hb
  simp only [md5digest, List.mem_append] at hb
  rcases hb with ((hb | hb) | hb) | hb <;> exact wordLE_lt _ b hb

theorem foldl_base256_lt (l : List Nat) :
    ∀ (acc c : Nat), (∀ b ∈ l, b < 256) → acc < c →
    l.foldl (fun a b => a * 256 + b) acc < c * 256 ^ l.length := by
  induction l with
  | nil => intro acc c _ h; simpa using h
  | cons b t ih =>
      intro acc c hb hacc
      simp only [List.foldl_cons, List.length_cons]
      have hb0 : b < 256 := hb b (List.mem_cons_self b t)
      have hstep : acc * 256 + b < c * 256 := by omega
      have h2 := ih (acc * 256 + b) (c * 256)
        (fun x hx => hb x (List.mem_cons_of_mem _ hx)) hstep
      calc t.foldl (fun a b => a * 256 + b) (acc * 256 + b)
          < c * 256 * 256 ^ t.length := h2
        _ = c * 256 ^ (t.length + 1) := by ring

theorem _hash_lt (key : String) : _hash key < 4294967296 := by
  have hlt := foldl_base256_lt ((md5digest (utf8Bytes key)).take 4) 0 1
    (fun b hb => md5digest_lt _ b (List.mem_of_mem_take hb)) (by norm_num)
  have hlen : ((md5digest (utf8Bytes key)).take 4).length ≤ 4 :=
    List.length_take_le _ _
  have hpow : (256 : Nat) ^ ((md5digest (utf8Bytes key)).take 4).length ≤ 256 ^ 4 :=
    Nat.pow_le_pow_right (by norm_num) hlen
  calc _hash key < 1 * 256 ^ ((md5digest (utf8Bytes key)).take 4).length := hlt
    _ ≤ 256 ^ 4 := by simpa using hpow
    _ = 4294967296 := by norm_num

/-! ## `get_node` is a pure read -/

theorem get_node_st_spec (s : ConsistentHash) (key : String) :
    (get_node_st s key).2 = s ∧ (get_node_st s key).1 = get_node s key := by
  by_cases hring : s.ring = []
  · simp [get_node_st, get_node, hring]
  · simp only [get_node_st, get_node, if_neg hring]
    cases hq : s.sorted_keys.get?
        (if bisect_left s.sorted_keys (_hash key) = s.sorted_keys.length then 0
         else bisect_left s.sorted_keys (_hash key)) with
    | none => simp [hq]
    | some p =>
        cases hd : dictGet s.ring p with
        | none => simp [hq, hd]
        | some n => simp [hq, hd]

/-- In a good state with a non-empty dict, `get_node` returns a node and
that node is a current member. -/
theorem GS_get_node_member (R : Nat) (mem : List String) (s : ConsistentHash)
    (hg : GoodState R mem s) (key : String) (hring : s.ring ≠ []) :
    ∃ n, get_node s key = GetRes.found n ∧ n ∈ mem := by
  have hsort : s.sorted_keys.Sorted (· ≤ ·) := by
    rw [hg.skeys]
    exact List.sorted_insertionSort _ _
  have hsk : s.sorted_keys ≠ [] := by
    obtain ⟨⟨p0, v0⟩, t, hring2⟩ : ∃ q t, s.ring = q :: t := by
      cases hq : s.ring with
      | nil => exact absurd hq hring
      | cons q t => exact ⟨q, t, rfl⟩
    have hget0 : dictGet s.ring p0 = some v0 := by
      rw [hring2]
      simp [dictGet]
    rw [hg.look] at hget0
    obtain ⟨hm, hpm⟩ := memLookup_some R mem p0 v0 hget0
    have hocc : p0 ∈ occHashes R mem := (mem_occHashes _ _ _).mpr ⟨v0, hm, hpm⟩
    intro hq
    have hmem2 : p0 ∈ (occHashes R mem).insertionSort (· ≤ ·) :=
      ((List.perm_insertionSort _ _).mem_iff).mpr hocc
    rw [← hg.skeys, hq] at hmem2
    exact List.not_mem_nil p0 hmem2
  have hcov : ∀ p ∈ s.sorted_keys, dictGet s.ring p ≠ none := by
    intro p hp
    rw [hg.skeys, (List.perm_insertionSort _ _).mem_iff] at hp
    obtain ⟨m, hm, hpm⟩ := (mem_occHashes _ _ _).mp hp
    obtain ⟨m2, hm2⟩ := memLookup_isSome R mem p m hm hpm
    rw [hg.look, hm2]
    exact Option.noConfusion
  obtain ⟨nd, h1, h2⟩ := get_node_found s key hsort hring hsk hcov
  rw [hg.look] at h1
  obtain ⟨hm, _⟩ := memLookup_some R mem _ nd h1
  exact ⟨nd, h2, hm⟩

/-! ## Claims -/

set_option maxRecDepth 1000000

set_option maxHeartbeats 2000000

/-- Claim C1: for every non-empty ring (a sorted position list, each
listed position owned in the dict), `get_node key` computes the key hash
and returns the node owning the smallest occupied position at or after
the hash, wrapping to the node owning the smallest occupied position
when the hash exceeds every occupied position.  `ringTarget` is that
specified position: the conjuncts state that `get_node` returns its
owner, that it is occupied, that it is the least occupied position at or
after the hash when one exists, and that it is the minimum occupied
position when the hash exceeds all of them. -/
theorem claim_C1_get_node_successor (s : ConsistentHash) (key : String)
    (hs : s.sorted_keys.Sorted (· ≤ ·))
    (hring : s.ring ≠ []) (hsk : s.sorted_keys ≠ [])
    (hcov : ∀ p ∈ s.sorted_keys, dictGet s.ring p ≠ none) :
    ∃ nd, dictGet s.ring (ringTarget s.sorted_keys (_hash key)) = some nd
      ∧ get_node s key = GetRes.found nd
      ∧ ringTarget s.sorted_keys (_hash key) ∈ s.sorted_keys
      ∧ ((∃ q ∈ s.sorted_keys, _hash key ≤ q) →
          _hash key ≤ ringTarget s.sorted_keys (_hash key)
          ∧ ∀ q ∈ s.sorted_keys, _hash key ≤ q →
              ringTarget s.sorted_keys (_hash key) ≤ q)
      ∧ ((∀ q ∈ s.sorted_keys, q < _hash key) →
          ∀ q ∈ s.sorted_keys, ringTarget s.sorted_keys (_hash key) ≤ q) := by
  obtain ⟨nd, h1, h2⟩ := get_node_found s key hs hring hsk hcov
  refine ⟨nd, h1, h2, ringTarget_mem _ _ hsk,
    fun hex => ringTarget_least _ _ hs hex, ?_⟩
  intro hall q hq
  rw [ringTarget_wrap _ _ hall]
  exact sorted_getD_zero_min _ hs q hq

/-- Witness for C1 at the one-node ring built by `add_node` from scratch
(position 1474421281 is the hash of the label `A:0`). -/
theorem claim_C1_witness :
    ∃ nd, dictGet (⟨1, [(1474421281, "A")], [1474421281]⟩ : ConsistentHash).ring
        (ringTarget [1474421281] (_hash "key3")) = some nd
      ∧ get_node ⟨1, [(1474421281, "A")], [1474421281]⟩ "key3" = GetRes.found nd := by
  obtain ⟨nd, h1, h2, _⟩ :=
    claim_C1_get_node_successor ⟨1, [(1474421281, "A")], [1474421281]⟩ "key3"
      (by decide) (by decide) (by decide) (by decide)
  exact ⟨nd, h1, h2⟩

/-- Claim C2 counterexample: the trace add A, add A, add B, remove A is a
sequence of construction/add/remove calls that completes (the duplicate
add is silently performed), leaves a non-empty ring, yet `get_node` on
key `key3` raises `KeyError` instead of returning a member: position
1474421281 is still in the sorted list but no longer in the dict. -/
theorem claim_C2_counterexample :
    runOps (initState 1) [Op.add "A", Op.add "A", Op.add "B", Op.remove "A"]
      = some ⟨1, [(720967041, "B")], [720967041, 1474421281]⟩
    ∧ (⟨1, [(720967041, "B")], [720967041, 1474421281]⟩ : ConsistentHash).ring ≠ []
    ∧ get_node ⟨1, [(720967041, "B")], [720967041, 1474421281]⟩ "key3"
        = GetRes.keyError
    ∧ ∀ n, get_node ⟨1, [(720967041, "B")], [720967041, 1474421281]⟩ "key3"
        ≠ GetRes.found n := by
  refine ⟨by decide, by decide, by decide, ?_⟩
  intro n h
  have hk : get_node (⟨1, [(720967041, "B")], [720967041, 1474421281]⟩ : ConsistentHash)
      "key3" = GetRes.keyError := by decide
  rw [hk] at h
  exact GetRes.noConfusion h

/-- Claim C2, amended: for every ring reachable by a well-formed trace
(no duplicate adds, removals only of members) whose virtual-node labels
hash injectively, if the ring is non-empty then `get_node` returns a node
that is currently a member; it never returns a removed node. -/
theorem claim_C2_amended (R : Nat) (ops : List Op) (s2 : ConsistentHash)
    (hinj : labelsInj R (nodesOf ops))
    (hwf : wfTrace [] ops = true)
    (hrun : runOps (initState R) ops = some s2)
    (key : String) (hring : s2.ring ≠ []) :
    ∃ n, get_node s2 key = GetRes.found n ∧ n ∈ memAfter [] ops := by
  obtain ⟨s3, hrun2, hg⟩ := runOps_good R (nodesOf ops) hinj ops [] (initState R)
    (GS_init R) hwf (by simp) (fun m hm => hm)
  rw [hrun] at hrun2
  obtain rfl : s2 = s3 := by
    injection hrun2
  exact GS_get_node_member R (memAfter [] ops) s2 hg key hring

/-- Witness for the amended C2 on the trace that only adds node A. -/
theorem claim_C2_amended_witness :
    ∃ n, get_node ⟨1, [(1474421281, "A")], [1474421281]⟩ "x" = GetRes.found n
      ∧ n ∈ memAfter [] [Op.add "A"] :=
  claim_C2_amended 1 [Op.add "A"] ⟨1, [(1474421281, "A")], [1474421281]⟩
    (by decide) (by decide) (by decide) "x" (by decide)

/-- Claim C3 counterexample: the public operation `add_node "A"` on a ring
already containing A completes and leaves the sorted position sequence
with a duplicate, violating the stated invariant. -/
theorem claim_C3_counterexample :
    runOps (initState 1) [Op.add "A", Op.add "A"]
      = some ⟨1, [(1474421281, "A")], [1474421281, 1474421281]⟩
    ∧ ¬ (⟨1, [(1474421281, "A")], [1474421281, 1474421281]⟩ :
        ConsistentHash).sorted_keys.Nodup := by
  exact ⟨by decide, by decide⟩

/-- Claim C3, amended: after every public operation of a well-formed trace
(no duplicate adds, removals only of members, labels hashing injectively)
the sorted sequence is sorted ascending, duplicate-free, its elements are
exactly the dict keys, and `get_node` leaves the state unchanged. -/
theorem claim_C3_amended (R : Nat) (ops : List Op) (s2 : ConsistentHash)
    (hinj : labelsInj R (nodesOf ops))
    (hwf : wfTrace [] ops = true)
    (hrun : runOps (initState R) ops = some s2) :
    s2.sorted_keys.Sorted (· ≤ ·)
    ∧ s2.sorted_keys.Nodup
    ∧ (∀ p, p ∈ s2.sorted_keys ↔ p ∈ s2.ring.map Prod.fst)
    ∧ ∀ key, (get_node_st s2 key).2 = s2 := by
  obtain ⟨s3, hrun2, hg⟩ := runOps_good R (nodesOf ops) hinj ops [] (initState R)
    (GS_init R) hwf (by simp) (fun m hm => hm)
  rw [hrun] at hrun2
  obtain rfl : s2 = s3 := by
    injection hrun2
  refine ⟨?_, ?_, ?_, ?_⟩
  · rw [hg.skeys]
    exact List.sorted_insertionSort _ _
  · rw [hg.skeys]
    exact ((List.perm_insertionSort _ _).nodup_iff).mpr hg.occnd
  · intro p
    rw [hg.skeys, (List.perm_insertionSort _ _).mem_iff]
    constructor
    · intro hp
      obtain ⟨m, hm, hpm⟩ := (mem_occHashes _ _ _).mp hp
      obtain ⟨m2, hm2⟩ := memLookup_isSome _ _ p m hm hpm
      have hne : dictGet s2.ring p ≠ none := by
        rw [hg.look, hm2]
        exact Option.noConfusion
      rw [Ne, dictGet_eq_none_iff] at hne
      exact Decidable.not_not.mp hne
    · intro hp
      have hne : dictGet s2.ring p ≠ none := by
        rw [Ne, dictGet_eq_none_iff]
        exact fun hq => hq hp
      rw [hg.look] at hne
      cases hq : memLookup R (memAfter [] ops) p with
      | none => exact absurd hq hne
      | some m =>
          obtain ⟨hm, hpm⟩ := memLookup_some _ _ _ _ hq
          exact (mem_occHashes _ _ _).mpr ⟨m, hm, hpm⟩
  · intro key
    exact (get_node_st_spec s2 key).1

/-- Witness for the amended C3 on the trace that only adds node A. -/
theorem claim_C3_amended_witness :
    (⟨1, [(1474421281, "A")], [1474421281]⟩ : ConsistentHash).sorted_keys.Nodup := by
  obtain ⟨_, h2, _⟩ :=
    claim_C3_amended 1 [Op.add "A"] ⟨1, [(1474421281, "A")], [1474421281]⟩
      (by decide) (by decide) (by decide)
  exact h2

theorem chEq (a b : ConsistentHash) (h1 : a.replicas = b.replicas)
    (h2 : a.ring = b.ring) (h3 : a.sorted_keys = b.sorted_keys) : a = b := by
  obtain ⟨r1, g1, k1⟩ := a
  obtain ⟨r2, g2, k2⟩ := b
  simp only at h1 h2 h3
  rw [h1, h2, h3]

/-- Claim C4 counterexample: with node A already present, `add_node "A"`
followed by `remove_node "A"` does not restore the prior state: the dict
entry for A is deleted outright while a duplicate of its position
survives in the sorted list. -/
theorem claim_C4_counterexample :
    runOps (initState 1) [Op.add "A"] = some ⟨1, [(1474421281, "A")], [1474421281]⟩
    ∧ remove_node (add_node ⟨1, [(1474421281, "A")], [1474421281]⟩ "A") "A"
        = some ⟨1, [], [1474421281]⟩
    ∧ (⟨1, [], [1474421281]⟩ : ConsistentHash)
        ≠ ⟨1, [(1474421281, "A")], [1474421281]⟩ := by
  refine ⟨by decide, by decide, by decide⟩

/-- Claim C4, amended: for every state whose sorted list is sorted and
every node whose virtual positions are pairwise distinct and not already
occupied in the dict, `add_node` followed immediately by `remove_node`
restores the exact prior state. -/
theorem claim_C4_amended (s : ConsistentHash) (n : String)
    (hsort : s.sorted_keys.Sorted (· ≤ ·))
    (hnd : (nodeHashes s.replicas n).Nodup)
    (hfresh : ∀ h ∈ nodeHashes s.replicas n, h ∉ s.ring.map Prod.fst) :
    remove_node (add_node s n) n = some s := by
  have hring : (add_node s n).ring
      = s.ring ++ (nodeHashes s.replicas n).map (fun h => (h, n)) :=
    foldl_dictSet_fresh _ _ _ hnd hfresh
  have hskadd : (add_node s n).sorted_keys
      = (s.sorted_keys ++ nodeHashes s.replicas n).insertionSort (· ≤ ·) := rfl
  have hmemsk : ∀ h ∈ nodeHashes s.replicas n, h ∈ (add_node s n).sorted_keys := by
    intro h hh
    rw [hskadd, (List.perm_insertionSort _ _).mem_iff]
    exact List.mem_append_right _ hh
  obtain ⟨s2, hrun, hr0, hrep, hsk2⟩ :=
    delLoop_exact (nodeHashes s.replicas n) s.ring n (add_node s n)
      hring hnd hfresh hmemsk
  have hrun2 : remove_node (add_node s n) n = some s2 := by
    rw [remove_node]
    have hrepadd : (add_node s n).replicas = s.replicas := rfl
    rw [hrepadd]
    exact hrun
  rw [hrun2]
  have hskeq : s2.sorted_keys = s.sorted_keys := by
    rw [hsk2, hskadd]
    refine List.eq_of_perm_of_sorted ?_
      (sorted_foldl_erase _ _ (List.sorted_insertionSort _ _)) hsort
    refine foldl_erase_perm _ _ _ ?_
    exact (List.perm_insertionSort _ _).trans List.perm_append_comm
  have : s2 = s := chEq s2 s (hrep.trans rfl) hr0 hskeq
  rw [this]

/-- Witness for the amended C4: adding then removing the fresh node B on a
one-node ring restores it exactly. -/
theorem claim_C4_witness :
    remove_node (add_node ⟨1, [(1474421281, "A")], [1474421281]⟩ "B") "B"
      = some ⟨1, [(1474421281, "A")], [1474421281]⟩ :=
  claim_C4_amended ⟨1, [(1474421281, "A")], [1474421281]⟩ "B"
    (by decide) (by decide) (by decide)

/-- Claim C5: for a node not already present whose fresh virtual positions
are pairwise distinct and unoccupied, `add_node` appends exactly the
bindings (hash of the label, node) for each replica index, inserts the
same positions into the sorted sequence, increases the number of occupied
positions by exactly the replica count, and maps each inserted position
to the node. -/
theorem claim_C5_add_node_effect (s : ConsistentHash) (node : String)
    (hnp : node ∉ s.ring.map Prod.snd)
    (hnd : (nodeHashes s.replicas node).Nodup)
    (hfresh : ∀ h ∈ nodeHashes s.replicas node, dictGet s.ring h = none) :
    (add_node s node).ring
        = s.ring ++ (nodeHashes s.replicas node).map (fun h => (h, node))
    ∧ (add_node s node).sorted_keys.Perm
        (s.sorted_keys ++ nodeHashes s.replicas node)
    ∧ (add_node s node).ring.length = s.ring.length + s.replicas
    ∧ ∀ h ∈ nodeHashes s.replicas node,
        dictGet (add_node s node).ring h = some node := by
  have hfresh2 : ∀ h ∈ nodeHashes s.replicas node, h ∉ s.ring.map Prod.fst :=
    fun h hh => (dictGet_eq_none_iff _ _).mp (hfresh h hh)
  have hring : (add_node s node).ring
      = s.ring ++ (nodeHashes s.replicas node).map (fun h => (h, node)) :=
    foldl_dictSet_fresh _ _ _ hnd hfresh2
  refine ⟨hring, ?_, ?_, ?_⟩
  · exact List.perm_insertionSort _ _
  · rw [hring]
    simp [nodeHashes_length]
  · intro h hh
    have hq := foldl_dictSet_get (nodeHashes s.replicas node) s.ring node h
    show dictGet ((nodeHashes s.replicas node).foldl
        (fun r h => dictSet r h node) s.ring) h = some node
    rw [hq, if_pos hh]

/-- Witness for C5: adding node A to the empty one-replica ring. -/
theorem claim_C5_witness :
    (add_node (initState 1) "A").ring
        = (initState 1).ring ++ (nodeHashes 1 "A").map (fun h => (h, "A"))
    ∧ (add_node (initState 1) "A").ring.length = (initState 1).ring.length + 1 := by
  obtain ⟨h1, _, h3, _⟩ :=
    claim_C5_add_node_effect (initState 1) "A" (by decide) (by decide) (by decide)
  exact ⟨h1, h3⟩

/-- Claim C6: `get_node` on a ring with no occupied positions returns the
explicit empty result (Python `None`) rather than raising. -/
theorem claim_C6_empty_ring (s : ConsistentHash) (key : String) (h : s.ring = []) :
    get_node s key = GetRes.noNode := by
  simp [get_node, h]

/-- Witness for C6 on the default-constructed empty ring. -/
theorem claim_C6_witness :
    (initState 100).ring = [] ∧ get_node (initState 100) "anykey" = GetRes.noNode :=
  ⟨rfl, claim_C6_empty_ring (initState 100) "anykey" rfl⟩

/-- Claim C7 counterexample: `add_node` called with node A already present
is not rejected: it silently runs again, duplicating A's position in the
sorted list (there is no error outcome in its type, and the state visibly
changes). -/
theorem claim_C7_counterexample :
    add_node ⟨1, [(1474421281, "A")], [1474421281]⟩ "A"
        = ⟨1, [(1474421281, "A")], [1474421281, 1474421281]⟩
    ∧ add_node ⟨1, [(1474421281, "A")], [1474421281]⟩ "A"
        ≠ ⟨1, [(1474421281, "A")], [1474421281]⟩ := by
  exact ⟨by decide, by decide⟩

/-- Claim C7, amended: `add_node` is performed unconditionally (duplicate
adds are silently executed, never rejected), while `remove_node` of an
absent node raises an uncaught `KeyError` at its first position (modelled
as `none`), so removal of a missing node is an error rather than a silent
no-op. -/
theorem claim_C7_amended (s : ConsistentHash) (n : String) :
    (add_node s n).sorted_keys
        = (s.sorted_keys ++ nodeHashes s.replicas n).insertionSort (· ≤ ·)
    ∧ (0 < s.replicas → dictGet s.ring (_hash (vnodeKey n 0)) = none →
        remove_node s n = none) := by
  refine ⟨rfl, ?_⟩
  intro hR hget
  rw [remove_node]
  obtain ⟨R1, hR1⟩ : ∃ R1, s.replicas = R1 + 1 := ⟨s.replicas - 1, by omega⟩
  rw [hR1, nodeHashes, List.range_succ_eq_map]
  simp only [List.map_cons]
  rw [List.foldlM_cons]
  have hdel : dictDel s.ring (_hash (vnodeKey n 0)) = none :=
    (dictDel_none_iff _ _).mpr ((dictGet_eq_none_iff _ _).mp hget)
  have hstep : removeStep s (_hash (vnodeKey n 0)) = none := by
    simp [removeStep, hdel]
  rw [hstep]
  rfl

/-- Witness for the amended C7: removing A from the empty ring raises. -/
theorem claim_C7_witness :
    remove_node (initState 1) "A" = none :=
  (claim_C7_amended (initState 1) "A").2 (by decide) (by decide)

/-- Claim C8 counterexample: the two distinct virtual-node labels
`n47651:0` and `n73991:0` hash to the same 32-bit position 1196326569;
adding n73991 after n47651 silently overwrites the dict entry (the old
owner is lost, no error or warning is produced — `add_node` returns a
plain state) and appends a duplicate position to the sorted list. -/
theorem claim_C8_counterexample :
    vnodeKey "n47651" 0 ≠ vnodeKey "n73991" 0
    ∧ _hash (vnodeKey "n47651" 0) = _hash (vnodeKey "n73991" 0)
    ∧ dictGet (add_node (initState 1) "n47651").ring 1196326569 = some "n47651"
    ∧ dictGet (add_node (add_node (initState 1) "n47651") "n73991").ring 1196326569
        = some "n73991"
    ∧ (add_node (add_node (initState 1) "n47651") "n73991").sorted_keys
        = [1196326569, 1196326569] := by
  refine ⟨by decide, by decide, by decide, by decide, by decide⟩

/-- Claim C8, amended: on a position collision `add_node` is deterministic
last-writer-wins without detection: after `add_node s n` every one of n's
virtual positions maps to n (overwriting any previous owner), and the
sorted list always grows by exactly the replica count, so a collision
leaves a duplicate position. -/
theorem claim_C8_amended (s : ConsistentHash) (n : String) :
    (∀ h ∈ nodeHashes s.replicas n, dictGet (add_node s n).ring h = some n)
    ∧ (add_node s n).sorted_keys.length = s.sorted_keys.length + s.replicas := by
  constructor
  · intro h hh
    have hq := foldl_dictSet_get (nodeHashes s.replicas n) s.ring n h
    show dictGet ((nodeHashes s.replicas n).foldl
        (fun r h => dictSet r h n) s.ring) h = some n
    rw [hq, if_pos hh]
  · show ((s.sorted_keys ++ nodeHashes s.replicas n).insertionSort (· ≤ ·)).length = _
    rw [(List.perm_insertionSort _ _).length_eq]
    simp [nodeHashes_length]

/-- Witness for the amended C8 at the colliding pair: the overwritten
position now maps to the later writer. -/
theorem claim_C8_witness :
    dictGet (add_node ⟨1, [(1196326569, "n47651")], [1196326569]⟩ "n73991").ring
      1196326569 = some "n73991" :=
  (claim_C8_amended ⟨1, [(1196326569, "n47651")], [1196326569]⟩ "n73991").1
    1196326569 (by decide)

/-- Claim C9: the hash is deterministic (repeated evaluation of the pure
function agrees) and always lies in the unsigned 32-bit range. -/
theorem claim_C9_hash_deterministic_range (x : String) :
    _hash x = _hash x ∧ _hash x < 4294967296 :=
  ⟨rfl, _hash_lt x⟩

/-- Claim C10: `get_node` is a pure read: threading the state through
every statement of the method returns the state unchanged together with
the value `get_node` computes. -/
theorem claim_C10_get_node_pure (s : ConsistentHash) (key : String) :
    (get_node_st s key).2 = s ∧ (get_node_st s key).1 = get_node s key :=
  get_node_st_spec s key

end CHash
